import Mathlib

set_option maxRecDepth 100000

/-!
Verification of the fuzzy medicine-name resolver
(`src/utils/fuzzyMedicineMatcher.js`).

The JavaScript source is shallowly embedded: strings are Lean `String`s
manipulated through their character lists, JS numbers that carry scores
and similarities are rationals (`ℚ`), database rows are records in a
`List`, and the SQL queries issued by the three match strategies are
embedded as pure list operations over that catalog.  PostgreSQL's
`pg_trgm` operators (`similarity` and `%`), which live inside the
database and not in the repository, are abstracted as an oracle
parameter.
-/

namespace FuzzyMed

/-- JS `\s`-style whitespace test used by `trim`, the dose regex and the
suffix regexes. -/
def isWs (c : Char) : Bool :=
  c = ' ' || c = '\t' || c = '\n' || c = '\r' || c = '\x0b' || c = '\x0c'

/-- JS `String.prototype.trim` on the character list. -/
def trimL (l : List Char) : List Char :=
  ((l.dropWhile isWs).reverse.dropWhile isWs).reverse

/-- JS `String.prototype.trim`. -/
def jsTrim (s : String) : String := ⟨trimL s.data⟩

/-- JS `String.prototype.toLowerCase` (ASCII case folding suffices for
the catalog's data). -/
def lowerStr (s : String) : String := ⟨s.data.map Char.toLower⟩

/-- `sub` occurs as a contiguous infix of `l`. -/
def isInfixL (sub : List Char) : List Char → Bool
  | [] => sub.isEmpty
  | c :: cs => sub.isPrefixOf (c :: cs) || isInfixL sub cs

/-- JS `s.includes sub` (substring containment). -/
def jsIncludes (s sub : String) : Bool := isInfixL sub.data s.data

/-- One step of the Levenshtein dynamic-programming matrix of
`levenshteinDistance`: from row `i` (over the columns of `str2`) to row
`i+1`, scanning the previous row pairwise.  `diag` is `matrix[i][j-1]`,
`above` is `matrix[i][j]`, `cur` is the freshly computed
`matrix[i+1][j-1]`. -/
def levStep (x : Char) : List Char → List Nat → Nat → List Nat
  | [], _, cur => [cur]
  | _ :: _, [], cur => [cur]
  | y :: ys, diag :: rest, cur =>
    let above := rest.headD 0
    let cost : Nat := if x.toLower = y.toLower then 0 else 1
    let v := min (above + 1) (min (cur + 1) (diag + cost))
    cur :: levStep x ys rest v

/-- Row `i+1` of the matrix from row `i` (`matrix[i+1][0] = i+1`). -/
def levRow (ys : List Char) (prev : List Nat) (x : Char) : List Nat :=
  levStep x ys prev (prev.headD 0 + 1)

/-- `levenshteinDistance(str1, str2)` from the source: unit-cost edit
distance with per-character case-insensitive comparison, computed by the
same row-by-row dynamic program as the JS matrix. -/
def levenshteinDistance (str1 str2 : String) : Nat :=
  (str1.data.foldl (levRow str2.data) (List.range (str2.data.length + 1))).getLastD 0

/-- `calculateSimilarity(str1, str2)` from the source.  JS falsiness of
the raw arguments (`if (!str1 || !str2) return 0`) is the empty-string
test; both strings are then lowercased and trimmed before the
exact / containment / Levenshtein rules run. -/
def calculateSimilarity (str1 str2 : String) : ℚ :=
  if str1 = "" ∨ str2 = "" then 0
  else
    let s1 := jsTrim (lowerStr str1)
    let s2 := jsTrim (lowerStr str2)
    if s1 = s2 then 1
    else if jsIncludes s1 s2 || jsIncludes s2 s1 then
      let longer := if s1.data.length > s2.data.length then s1 else s2
      let shorter := if s1.data.length > s2.data.length then s2 else s1
      (8 / 10 : ℚ) * ((shorter.data.length : ℚ) / (longer.data.length : ℚ))
    else
      let maxLength : Nat := max s1.data.length s2.data.length
      if maxLength = 0 then 1
      else
        max 0 (1 - (levenshteinDistance s1 s2 : ℚ) / (maxLength : ℚ))

/-- The similarity function exactly as claim C2 words it: rules applied
to the raw strings in priority order — case-insensitive equality,
case-insensitive containment scaled by the length ratio, then the
Levenshtein formula — with no trimming and no special treatment of empty
inputs. -/
def claimSimilarity (str1 str2 : String) : ℚ :=
  let s1 := lowerStr str1
  let s2 := lowerStr str2
  if s1 = s2 then 1
  else if jsIncludes s1 s2 || jsIncludes s2 s1 then
    let longer := if s1.data.length > s2.data.length then s1 else s2
    let shorter := if s1.data.length > s2.data.length then s2 else s1
    (8 / 10 : ℚ) * ((shorter.data.length : ℚ) / (longer.data.length : ℚ))
  else
    max 0 (1 - (levenshteinDistance str1 str2 : ℚ) /
      ((max s1.data.length s2.data.length : Nat) : ℚ))

/-- Claim C2 amended: the same priority rules, but evaluated on the
lowercased **and trimmed** strings, and with an empty input short-circuiting
to similarity 0 (the JS falsiness guard). -/
def claimSimilarityAmended (str1 str2 : String) : ℚ :=
  if str1 = "" ∨ str2 = "" then 0
  else
    let s1 := jsTrim (lowerStr str1)
    let s2 := jsTrim (lowerStr str2)
    if s1 = s2 then 1
    else if jsIncludes s1 s2 || jsIncludes s2 s1 then
      let longer := if s1.data.length > s2.data.length then s1 else s2
      let shorter := if s1.data.length > s2.data.length then s2 else s1
      (8 / 10 : ℚ) * ((shorter.data.length : ℚ) / (longer.data.length : ℚ))
    else
      max 0 (1 - (levenshteinDistance s1 s2 : ℚ) /
        ((max s1.data.length s2.data.length : Nat) : ℚ))

/-! ### DosageExtractor

The regex `/(\d+(?:\.\d+)?)\s*(mg|gm|ml|mcg|g|l|iu|%)/gi` of
`extractStrengthFromName` is embedded as an explicit matcher on character
lists.  Greedy maximal munch for `\d+` and `\s*` is complete here because
no unit alternative begins with a digit, a dot or whitespace, so the only
backtracking the regex engine can perform is dropping the optional
decimal group. -/

/-- JS `\d`. -/
def isDigitC (c : Char) : Bool := c.isDigit

/-- The unit alternation of the dose regex, in source order. -/
def doseUnits : List (List Char) :=
  [['m','g'], ['g','m'], ['m','l'], ['m','c','g'], ['g'], ['l'], ['i','u'], ['%']]

/-- Try each unit alternative, in order, as a case-insensitive prefix of
`l`; return the consumed characters (original case) and the remainder. -/
def tryUnits : List (List Char) → List Char → Option (List Char × List Char)
  | [], _ => none
  | alt :: alts, l =>
    if (l.take alt.length).map Char.toLower = alt then
      some (l.take alt.length, l.drop alt.length)
    else tryUnits alts l

/-- `\s*` then the unit alternation: returns `(whitespace, unit, rest)`. -/
def tryWsUnit (l : List Char) : Option (List Char × List Char × List Char) :=
  match tryUnits doseUnits (l.dropWhile isWs) with
  | some (u, rest) => some (l.takeWhile isWs, u, rest)
  | none => none

/-- Try the whole dose pattern at the head of `l`:
`(numeric token, whitespace, unit, rest)`. -/
def tryDoseAt (l : List Char) : Option (List Char × List Char × List Char × List Char) :=
  let ds := l.takeWhile isDigitC
  let r1 := l.dropWhile isDigitC
  if ds.isEmpty then none
  else
    match r1 with
    | '.' :: r2 =>
      let ds2 := r2.takeWhile isDigitC
      let r3 := r2.dropWhile isDigitC
      if ds2.isEmpty then
        match tryWsUnit r1 with
        | some (w, u, rest) => some (ds, w, u, rest)
        | none => none
      else
        match tryWsUnit r3 with
        | some (w, u, rest) => some (ds ++ '.' :: ds2, w, u, rest)
        | none =>
          match tryWsUnit r1 with
          | some (w, u, rest) => some (ds, w, u, rest)
          | none => none
    | _ =>
      match tryWsUnit r1 with
      | some (w, u, rest) => some (ds, w, u, rest)
      | none => none

/-- Leftmost match of the dose pattern: `(numeric token, whitespace, unit)`. -/
def findDose : List Char → Option (List Char × List Char × List Char)
  | [] => none
  | c :: cs =>
    match tryDoseAt (c :: cs) with
    | some (n, w, u, _) => some (n, w, u)
    | none => findDose cs

/-- Global replacement of the dose pattern by the empty string
(`medicineName.replace(strengthPattern, '')`): each match is skipped and
scanning resumes after it.  Fuel-indexed to stay structurally recursive;
`l.length` fuel always suffices since every match consumes at least one
character. -/
def removeDosesF : Nat → List Char → List Char
  | 0, l => l
  | _ + 1, [] => []
  | f + 1, c :: cs =>
    match tryDoseAt (c :: cs) with
    | some (_, _, _, rest) => removeDosesF f rest
    | none => c :: removeDosesF f cs

/-- `s.replace(strengthPattern, '')` on the character list. -/
def removeDoses (l : List Char) : List Char := removeDosesF l.length l

/-- First match of `/(\d+(?:\.\d+)?)/` (the `numMatch` re-parse of the
matched dose token). -/
def findNum : List Char → Option (List Char)
  | [] => none
  | c :: cs =>
    if isDigitC c then
      let ds := (c :: cs).takeWhile isDigitC
      let r1 := (c :: cs).dropWhile isDigitC
      match r1 with
      | '.' :: r2 =>
        let ds2 := r2.takeWhile isDigitC
        if ds2.isEmpty then some ds else some (ds ++ '.' :: ds2)
      | _ => some ds
    else findNum cs

/-- First match of `/(mg|gm|ml|mcg|g|l|iu|%)/i` (the `unitMatch` re-parse
of the matched dose token). -/
def findUnit : List Char → Option (List Char)
  | [] => none
  | c :: cs =>
    match tryUnits doseUnits (c :: cs) with
    | some (u, _) => some u
    | none => findUnit cs

/-- The `ExtractedDose` result shape of `extractStrengthFromName`. -/
structure ExtractedDose where
  name : String
  strength : Option String
  unit : Option String
  fullDose : Option String
deriving DecidableEq

/-- `extractStrengthFromName(medicineName)` from the source. -/
def extractStrengthFromName (medicineName : String) : ExtractedDose :=
  if medicineName = "" then ⟨"", none, none, none⟩
  else
    match findDose medicineName.data with
    | some (n, w, u) =>
      let fullDose := trimL ((n ++ w ++ u).map Char.toLower)
      { name := ⟨trimL (removeDoses medicineName.data)⟩
        strength := (findNum fullDose).map fun l => (⟨l⟩ : String)
        unit := (findUnit fullDose).map fun l => lowerStr ⟨l⟩
        fullDose := some ⟨fullDose⟩ }
    | none => ⟨jsTrim medicineName, none, none, none⟩

/-- Claim C5's reading of the pattern: a numeric token **immediately**
followed by a unit, with no whitespace allowed in between, occurring
anywhere in the string. -/
def hasTightDose : List Char → Bool
  | [] => false
  | c :: cs =>
    (match tryDoseAt (c :: cs) with
     | some (_, w, _, _) => w.isEmpty
     | none => false) || hasTightDose cs

/-! ### NameNormalizer -/

/-- `MEDICINE_SUFFIXES` from the source, in source order. -/
def MEDICINE_SUFFIXES : List String :=
  ["tablet", "tablets", "tab", "tabs",
   "capsule", "capsules", "cap", "caps",
   "syrup", "suspension", "solution",
   "injection", "inj",
   "cream", "ointment", "gel",
   "drops", "drop",
   "powder", "granules",
   "mr", "sr", "xr", "er", "cr", "la", "xl", "ds"]

/-- One `cleaned.replace(/\s+suffix\s*$/gi, '')` step of `removeSuffixes`.
The argument string is already lowercased, so the `i` flag is plain
equality here.  Anchored at `$`, the pattern can match at most once; the
leftmost match absorbs the whole trailing-whitespace run before the
suffix. -/
def stripOneSuffix (sfx : List Char) (s : List Char) : List Char :=
  let r1 := s.reverse.dropWhile isWs
  if sfx.reverse.isPrefixOf r1 then
    let r2 := r1.drop sfx.length
    match r2 with
    | c :: _ => if isWs c then (r2.dropWhile isWs).reverse else s
    | [] => s
  else s

/-- `removeSuffixes(name)` from the source: lowercase and trim, strip each
suffix of `MEDICINE_SUFFIXES` in order from the end of the string, trim
again. -/
def removeSuffixes (name : String) : String :=
  if name = "" then ""
  else
    let cleaned := (jsTrim (lowerStr name)).data
    ⟨trimL (MEDICINE_SUFFIXES.foldl (fun acc sfx => stripOneSuffix sfx.data acc) cleaned)⟩

/-- JS `Set.prototype.add` on an insertion-ordered list. -/
def addUniq (l : List String) (s : String) : List String :=
  if s ∈ l then l else l ++ [s]

/-- `s.replace(/a/g, b)` for single characters. -/
def replaceAllC (s : String) (a b : Char) : String :=
  ⟨s.data.map fun c => if c = a then b else c⟩

/-- The OCR-confusion additions performed for one base variant inside
`generateMedicineNameVariations`. -/
def ocrAdds (variations : List String) (base : String) : List String :=
  let lowerBase := lowerStr base
  let v1 :=
    if lowerBase.data.contains 'o' || lowerBase.data.contains '0' then
      addUniq (addUniq variations (replaceAllC lowerBase 'o' '0')) (replaceAllC lowerBase '0' 'o')
    else variations
  let v2 :=
    if lowerBase.data.contains 'i' || lowerBase.data.contains '1' || lowerBase.data.contains 'l' then
      addUniq (addUniq (addUniq v1 (replaceAllC lowerBase 'i' '1'))
        (replaceAllC lowerBase '1' 'i')) (replaceAllC lowerBase 'l' 'i')
    else v1
  if lowerBase.data.contains 's' || lowerBase.data.contains '5' then
    addUniq (addUniq v2 (replaceAllC lowerBase 's' '5')) (replaceAllC lowerBase '5' 's')
  else v2

/-- `generateMedicineNameVariations(medicineName)` from the source.  The JS
`Set` is an insertion-ordered deduplicated list; `baseVariations` is the
snapshot `Array.from(variations).slice(0, 3)` taken before the OCR loop. -/
def generateMedicineNameVariations (medicineName : String) : List String :=
  if medicineName = "" then []
  else
    let cleaned := jsTrim medicineName
    let v0 := addUniq (addUniq [] cleaned) (lowerStr cleaned)
    let extracted := extractStrengthFromName cleaned
    let v1 :=
      if extracted.name ≠ "" ∧ extracted.name ≠ cleaned then
        addUniq (addUniq v0 extracted.name) (lowerStr extracted.name)
      else v0
    let withoutSuffix := removeSuffixes cleaned
    let v2 :=
      if withoutSuffix ≠ "" ∧ withoutSuffix ≠ lowerStr cleaned then
        addUniq v1 withoutSuffix
      else v1
    let baseVariations := v2.take 3
    (baseVariations.foldl ocrAdds v2).filter fun v => 2 ≤ v.data.length

/-! ### Reference store and match strategies

A catalog row of `med_details`.  The SQL flag columns are integers; the
pg_trgm `similarity` function and `%` operator are database-side and are
abstracted as a `TrgmOracle`. -/

/-- One of the five composition slots of a catalog row. -/
structure CompSlot where
  id : Option Nat
  name : Option String
  strength : Option String
  unit : Option String
deriving DecidableEq

/-- A `med_details` row. -/
structure MedRecord where
  med_id : Nat
  med_brand_name : String
  med_generic_id : Option Nat
  comp1 : CompSlot
  comp2 : CompSlot
  comp3 : CompSlot
  comp4 : CompSlot
  comp5 : CompSlot
  med_price : Option ℚ
  med_manufacturer_name : Option String
  med_pack_size : Option String
  med_type : Option String
  med_weightage : Option Int
  is_active : Nat
  is_deactivated : Nat
deriving DecidableEq

/-- JS truthiness of a nullable string. -/
def jsTruthyS : Option String → Bool
  | some s => s ≠ ""
  | none => false

/-- `buildDoseString(strength, unit)` from the source. -/
def buildDoseString (strength unitStr : Option String) : Option String :=
  if jsTruthyS strength && jsTruthyS unitStr then
    some (strength.getD "" ++ unitStr.getD "")
  else none

/-- One `composition{i}` part of `buildCompositionString`. -/
def compPart (c : CompSlot) : Option String :=
  if jsTruthyS c.name then
    let dose :=
      if jsTruthyS c.strength && jsTruthyS c.unit then
        " " ++ c.strength.getD "" ++ c.unit.getD ""
      else ""
    some (c.name.getD "" ++ dose)
  else none

/-- The five composition slots in storage order. -/
def slotList (m : MedRecord) : List CompSlot :=
  [m.comp1, m.comp2, m.comp3, m.comp4, m.comp5]

/-- `buildCompositionString(medicine)` from the source. -/
def buildCompositionString (m : MedRecord) : Option String :=
  let parts := (slotList m).filterMap compPart
  if parts.length > 0 then some (String.intercalate " + " parts) else none

/-- A formatted composition slot of `formatMedicineResult`. -/
structure FormattedComp where
  id : Option Nat
  name : Option String
  strength : Option String
  unit : Option String
  dose : Option String
deriving DecidableEq

/-- The output shape of `formatMedicineResult`. -/
structure FormattedMed where
  med_drug_id : Nat
  drug_name : String
  med_generic_id : Option Nat
  composition1 : FormattedComp
  composition2 : FormattedComp
  composition3 : FormattedComp
  composition4 : FormattedComp
  composition5 : FormattedComp
  composition : Option String
  mrp : Option ℚ
  manufacturer : Option String
  pack_size : Option String
  med_type : Option String
  med_weightage : Option Int
deriving DecidableEq

/-- One formatted slot. -/
def formatComp (c : CompSlot) : FormattedComp :=
  ⟨c.id, c.name, c.strength, c.unit, buildDoseString c.strength c.unit⟩

/-- `formatMedicineResult(medicine)` from the source. -/
def formatMedicineResult (m : MedRecord) : FormattedMed :=
  { med_drug_id := m.med_id
    drug_name := m.med_brand_name
    med_generic_id := m.med_generic_id
    composition1 := formatComp m.comp1
    composition2 := formatComp m.comp2
    composition3 := formatComp m.comp3
    composition4 := formatComp m.comp4
    composition5 := formatComp m.comp5
    composition := buildCompositionString m
    mrp := m.med_price
    manufacturer := m.med_manufacturer_name
    pack_size := m.med_pack_size
    med_type := m.med_type
    med_weightage := m.med_weightage }

/-- The result object of `fuzzySearchMedicine` (the JS `match` field is
`medMatch` here, `match` being a Lean keyword). -/
structure SearchResult where
  success : Bool
  message : Option String
  medMatch : Option FormattedMed
  confidence : ℚ
  matchType : Option String
  searchTerm : Option String
deriving DecidableEq

/-- The `WHERE md.is_active = 1 AND md.is_deactivated = 0` soft-delete
filter shared by every strategy's query. -/
def activeFilter (m : MedRecord) : Bool :=
  m.is_active == 1 && m.is_deactivated == 0

/-- `a` ranks strictly before `b` under `ORDER BY … DESC NULLS LAST` on a
nullable integer column. -/
def wLt (a b : Option Int) : Bool :=
  match a, b with
  | some x, some y => y < x
  | some _, none => true
  | none, _ => false

/-- Insert `x` after every element it does not strictly precede: the
insertion step of a stable sort. -/
def insertEnd {α : Type} (lt : α → α → Bool) (x : α) : List α → List α
  | [] => [x]
  | y :: ys => if lt x y then x :: y :: ys else y :: insertEnd lt x ys

/-- Stable sort by a strict ranking predicate (models both SQL `ORDER BY`
and the stable JS `Array.prototype.sort`). -/
def stableSort {α : Type} (lt : α → α → Bool) (l : List α) : List α :=
  l.foldl (fun acc x => insertEnd lt x acc) []

/-- SQL `LIKE` pattern matching (`%` and `_` wildcards), fuel-indexed to
stay structurally recursive; fuel `|pattern| + |text| + 1` always
suffices since every recursive call shrinks `|pattern| + |text|`. -/
def likeMatchF : Nat → List Char → List Char → Bool
  | 0, _, _ => false
  | _ + 1, [], [] => true
  | _ + 1, [], _ :: _ => false
  | f + 1, '%' :: ps, t =>
    likeMatchF f ps t ||
      (match t with
       | [] => false
       | _ :: ts => likeMatchF f ('%' :: ps) ts)
  | f + 1, '_' :: ps, t =>
    (match t with
     | [] => false
     | _ :: ts => likeMatchF f ps ts)
  | f + 1, p :: ps, t =>
    (match t with
     | [] => false
     | c :: ts => p == c && likeMatchF f ps ts)

/-- `text LIKE pattern`. -/
def sqlLike (text pattern : String) : Bool :=
  likeMatchF (pattern.data.length + text.data.length + 1) pattern.data text.data

/-- `tryExactMatch(variations)` from the source: for each variation in
order, the exact-equality query ordered by weightage (`DESC NULLS LAST`)
with `LIMIT 1`; first hit wins. -/
def tryExactMatch (cat : List MedRecord) : List String → Option SearchResult
  | [] => none
  | v :: vs =>
    let rows :=
      (stableSort (fun a b => wLt a.med_weightage b.med_weightage)
        (cat.filter fun m => activeFilter m && (lowerStr m.med_brand_name == lowerStr v))).take 1
    match rows with
    | row :: _ =>
      some { success := true, message := none,
             medMatch := some (formatMedicineResult row), confidence := 1,
             matchType := some "exact", searchTerm := some v }
    | [] => tryExactMatch cat vs

/-- A scored candidate of the fuzzy / composition strategies. -/
structure FuzzyCand where
  medicine : FormattedMed
  similarity : ℚ
  matchScore : Nat
  searchTerm : String
deriving DecidableEq

/-- The `CASE … END as match_score` of the fuzzy LIKE query. -/
def fuzzyScore (v : String) (m : MedRecord) : Nat :=
  let bl := lowerStr m.med_brand_name
  let vl := lowerStr v
  if bl = vl then 100
  else if sqlLike bl ⟨vl.data ++ ['%']⟩ then 90
  else if sqlLike bl ⟨'%' :: (vl.data ++ ['%'])⟩ then 80
  else 70

/-- `ORDER BY match_score DESC, med_weightage DESC NULLS LAST` of the
fuzzy LIKE query. -/
def fuzzyRowLt (a b : MedRecord × Nat) : Bool :=
  if a.2 = b.2 then wLt a.1.med_weightage b.1.med_weightage
  else decide (b.2 < a.2)

/-- `tryFuzzyLikeSearch(variations, maxResults)` from the source. -/
def tryFuzzyLikeSearch (cat : List MedRecord) (variations : List String)
    (maxResults : Nat) : List FuzzyCand :=
  variations.foldl
    (fun acc v =>
      let rows := cat.filter fun m =>
        activeFilter m && sqlLike (lowerStr m.med_brand_name) ⟨'%' :: ((lowerStr v).data ++ ['%'])⟩
      let sorted := (stableSort fuzzyRowLt (rows.map fun m => (m, fuzzyScore v m))).take maxResults
      acc ++ sorted.map fun p =>
        { medicine := formatMedicineResult p.1
          similarity := calculateSimilarity v p.1.med_brand_name
          matchScore := p.2
          searchTerm := v })
    []

/-- The database-side pg_trgm interface: `sim` is the SQL `similarity()`
function, `pctOp` the `%` operator. -/
structure TrgmOracle where
  sim : String → String → ℚ
  pctOp : String → String → Bool

/-- `LOWER(md.med_composition_name_i) % LOWER($1)` (NULL is not a match). -/
def slotTrgmB (o : TrgmOracle) (term : String) (c : CompSlot) : Bool :=
  match c.name with
  | some nm => o.pctOp (lowerStr nm) (lowerStr term)
  | none => false

/-- `GREATEST(similarity(LOWER(COALESCE(name_i, '')), LOWER($1)), …)`. -/
def compSimilarity (o : TrgmOracle) (term : String) (m : MedRecord) : ℚ :=
  max (o.sim (lowerStr (m.comp1.name.getD "")) (lowerStr term))
    (max (o.sim (lowerStr (m.comp2.name.getD "")) (lowerStr term))
      (max (o.sim (lowerStr (m.comp3.name.getD "")) (lowerStr term))
        (max (o.sim (lowerStr (m.comp4.name.getD "")) (lowerStr term))
          (o.sim (lowerStr (m.comp5.name.getD "")) (lowerStr term)))))

/-- One slot's `name_i % $1 AND strength_i = $2 AND LOWER(unit_i) = LOWER($3)`
condition (NULL comparisons are not true). -/
def slotExact100 (o : TrgmOracle) (term st un : String) (c : CompSlot) : Bool :=
  slotTrgmB o term c && (c.strength == some st)
    && ((c.unit.map lowerStr) == some (lowerStr un))

/-- The `CASE … END as comp_match_score` of the strength-matching
composition query: 100 on a trigram+strength+unit slot hit, 80 on a
trigram slot hit, else 70. -/
def compMatchScore (o : TrgmOracle) (term st un : String) (m : MedRecord) : Nat :=
  if (slotList m).any (slotExact100 o term st un) then 100
  else if (slotList m).any (slotTrgmB o term) then 80
  else 70

/-- `ORDER BY comp_match_score DESC, comp_similarity DESC,
med_weightage DESC NULLS LAST`. -/
def compRowLtA (a b : MedRecord × Nat × ℚ) : Bool :=
  if a.2.1 = b.2.1 then
    if a.2.2 = b.2.2 then wLt a.1.med_weightage b.1.med_weightage
    else decide (b.2.2 < a.2.2)
  else decide (b.2.1 < a.2.1)

/-- `ORDER BY comp_similarity DESC, med_weightage DESC NULLS LAST`. -/
def compRowLtB (a b : MedRecord × ℚ) : Bool :=
  if a.2 = b.2 then wLt a.1.med_weightage b.1.med_weightage
  else decide (b.2 < a.2)

/-- `tryCompositionSearch(salt, maxResults)` from the source.  The guard
`if (!salt) return []` covers both null and the empty string;
`SELECT DISTINCT` is `List.dedup`; the JS `row.comp_similarity || 0.7`
and `row.comp_match_score || 80` falsy-defaults are modelled exactly
(the score column is absent, hence 80, in the no-strength query). -/
def tryCompositionSearch (cat : List MedRecord) (o : TrgmOracle)
    (salt : Option String) (maxResults : Nat) : List FuzzyCand :=
  match salt with
  | none => []
  | some saltStr =>
    if saltStr = "" then []
    else
      let extracted := extractStrengthFromName saltStr
      let term := if extracted.name ≠ "" then extracted.name else saltStr
      let rows := (cat.filter fun m =>
        activeFilter m && (slotList m).any (slotTrgmB o term)).dedup
      if jsTruthyS extracted.strength && jsTruthyS extracted.unit then
        let st := extracted.strength.getD ""
        let un := extracted.unit.getD ""
        let sorted :=
          (stableSort compRowLtA
            (rows.map fun m => (m, compMatchScore o term st un m, compSimilarity o term m))).take maxResults
        sorted.map fun p =>
          { medicine := formatMedicineResult p.1
            similarity := if p.2.2 = (0 : ℚ) then (7 : ℚ) / 10 else p.2.2
            matchScore := if p.2.1 = 0 then 80 else p.2.1
            searchTerm := saltStr }
      else
        let sorted :=
          (stableSort compRowLtB
            (rows.map fun m => (m, compSimilarity o term m))).take maxResults
        sorted.map fun p =>
          { medicine := formatMedicineResult p.1
            similarity := if p.2 = (0 : ℚ) then (7 : ℚ) / 10 else p.2
            matchScore := 80
            searchTerm := saltStr }

/-! ### ResultArbiter -/

/-- The options object of `fuzzySearchMedicine`, with the source's
defaults. -/
structure SearchOptions where
  minSimilarity : ℚ := 7 / 10
  maxResults : Nat := 5
  includeSalt : Option String := none
  preferExactMatch : Bool := true
deriving DecidableEq

/-- The exact-match step (step 2): run only when `preferExactMatch`. -/
def exactAttempt (cat : List MedRecord) (opts : SearchOptions)
    (medicineName : String) : Option SearchResult :=
  if opts.preferExactMatch then
    tryExactMatch cat (generateMedicineNameVariations medicineName)
  else none

/-- The fuzzy LIKE candidate pool (step 3). -/
def fuzzyPool (cat : List MedRecord) (opts : SearchOptions)
    (medicineName : String) : List FuzzyCand :=
  tryFuzzyLikeSearch cat (generateMedicineNameVariations medicineName) opts.maxResults

/-- Steps 3–4: the merged candidate pool — composition candidates are
appended only when a salt was supplied and the fuzzy pool is empty. -/
def mergedCandidates (cat : List MedRecord) (o : TrgmOracle)
    (opts : SearchOptions) (medicineName : String) : List FuzzyCand :=
  let fuzzyResults := fuzzyPool cat opts medicineName
  if jsTruthyS opts.includeSalt && fuzzyResults.isEmpty then
    fuzzyResults ++ tryCompositionSearch cat o opts.includeSalt opts.maxResults
  else fuzzyResults

/-- The in-memory sort comparator of step 5 (`matchScore` desc,
`similarity` desc, `med_weightage || 0` desc). -/
def candLt (a b : FuzzyCand) : Bool :=
  if a.matchScore = b.matchScore then
    if a.similarity = b.similarity then
      decide (b.medicine.med_weightage.getD 0 < a.medicine.med_weightage.getD 0)
    else decide (b.similarity < a.similarity)
  else decide (b.matchScore < a.matchScore)

/-- The candidate pool after the stable sort of step 5. -/
def sortedCandidates (cat : List MedRecord) (o : TrgmOracle)
    (opts : SearchOptions) (medicineName : String) : List FuzzyCand :=
  stableSort candLt (mergedCandidates cat o opts medicineName)

/-- The failure result of step 6 / step 8. -/
def noMatchResult : SearchResult :=
  { success := false, message := some "No matching medicine found",
    medMatch := none, confidence := 0, matchType := none, searchTerm := none }

/-- The fail-fast validation result. -/
def validationFailResult : SearchResult :=
  { success := false,
    message := some "Medicine name must be at least 2 characters long",
    medMatch := none, confidence := 0, matchType := none, searchTerm := none }

/-- `fuzzySearchMedicine(medicineName, options)` from the source. -/
def fuzzySearchMedicine (cat : List MedRecord) (o : TrgmOracle)
    (medicineName : String) (opts : SearchOptions) : SearchResult :=
  if medicineName = "" ∨ (jsTrim medicineName).data.length < 2 then
    validationFailResult
  else
    match exactAttempt cat opts medicineName with
    | some r => r
    | none =>
      match sortedCandidates cat o opts medicineName with
      | best :: _ =>
        if opts.minSimilarity ≤ best.similarity then
          { success := true, message := none,
            medMatch := some best.medicine, confidence := best.similarity,
            matchType := some (if best.matchScore = 100 then "exact-composition" else "fuzzy"),
            searchTerm := some best.searchTerm }
        else noMatchResult
      | [] => noMatchResult

/-! ### BatchRunner -/

/-- One entry of the `medicines` array of `batchFuzzySearch`. -/
structure BatchItem where
  medicine_name : String
  medicine_salt : Option String
deriving DecidableEq

/-- One entry of the result list of `batchFuzzySearch`. -/
structure BatchResult where
  original : BatchItem
  searchResult : SearchResult
  index : Nat
deriving DecidableEq

/-- `batchFuzzySearch(medicines, options)` from the source: each item is
resolved independently, in input order, with the item's `medicine_salt`
spread over the batch options as `includeSalt`. -/
def batchFuzzySearch (cat : List MedRecord) (o : TrgmOracle)
    (medicines : List BatchItem) (opts : SearchOptions) : List BatchResult :=
  if medicines.isEmpty then []
  else
    medicines.enum.map fun p =>
      { original := p.2
        searchResult :=
          fuzzySearchMedicine cat o p.2.medicine_name
            { opts with includeSalt := p.2.medicine_salt }
        index := p.1 }

/-! ### Sample data for concrete witnesses -/

/-- An empty composition slot. -/
def slotNone : CompSlot := ⟨none, none, none, none⟩

/-- An active catalog row with brand name `"Dolo"`. -/
def recDolo : MedRecord :=
  { med_id := 1, med_brand_name := "Dolo", med_generic_id := none
    comp1 := ⟨some 11, some "para", some "500", some "mg"⟩
    comp2 := slotNone, comp3 := slotNone, comp4 := slotNone, comp5 := slotNone
    med_price := none, med_manufacturer_name := none, med_pack_size := none
    med_type := none, med_weightage := some 5
    is_active := 1, is_deactivated := 0 }

/-- A soft-deleted copy of `recDolo` (`is_active = 0`). -/
def recDoloOff : MedRecord :=
  { recDolo with med_id := 2, is_active := 0 }

/-- An active row whose brand name shares nothing with the queries below
but whose first composition slot is `para 500 mg`. -/
def recZzz : MedRecord :=
  { med_id := 3, med_brand_name := "Zzz", med_generic_id := none
    comp1 := ⟨some 31, some "para", some "500", some "mg"⟩
    comp2 := slotNone, comp3 := slotNone, comp4 := slotNone, comp5 := slotNone
    med_price := none, med_manufacturer_name := none, med_pack_size := none
    med_type := none, med_weightage := none
    is_active := 1, is_deactivated := 0 }

/-- A concrete trigram oracle for witnesses: similarity 1 on equal
strings, 0 otherwise; `%` is equality. -/
def oracleEq : TrgmOracle :=
  ⟨fun a b => if a = b then 1 else 0, fun a b => a == b⟩

end FuzzyMed

open FuzzyMed


/-- C2 counterexample: on `("abc ", "abc")` the claim's rule order gives the
containment score `0.8 * 3/4 = 3/5` (the strings are not equal without
trimming), but the code trims first and returns `1`. -/
theorem calculateSimilarity_claim_cex :
    claimSimilarity "abc " "abc" ≠ calculateSimilarity "abc " "abc" := by
  with_unfolding_all decide

/-- C2 (amended): `calculateSimilarity` computes, for every pair of strings,
the first applicable rule in priority order — equality, containment, the
Levenshtein formula — applied to the lowercased and trimmed inputs, with an
empty input giving 0. -/
theorem calculateSimilarity_amended_spec (a b : String) :
    calculateSimilarity a b = claimSimilarityAmended a b := by
  unfold calculateSimilarity claimSimilarityAmended
  split
  · rfl
  · dsimp only
    split
    · rfl
    · split
      · rfl
      · split
        · next hmax => rw [hmax]; simp
        · rfl

/-- C3 counterexample: the claim includes the empty string, but the JS
falsiness guard `if (!str1 || !str2) return 0` makes
`calculateSimilarity("", "")` return 0, not 1. -/
theorem calculateSimilarity_refl_cex :
    ¬ (calculateSimilarity "" "" = 1) := by
  with_unfolding_all decide

/-- C3 (amended): for every **nonempty** string `s`,
`calculateSimilarity(s, s) = 1.0`; the empty string instead hits the
falsiness guard and yields 0. -/
theorem calculateSimilarity_refl (s : String) (h : s ≠ "") :
    calculateSimilarity s s = 1 := by
  unfold calculateSimilarity
  rw [if_neg (by simp [h]), if_pos rfl]

/-- Witness for C3 (amended) at `s = "Dolo"`. -/
theorem calculateSimilarity_refl_witness :
    "Dolo" ≠ "" ∧ calculateSimilarity "Dolo" "Dolo" = 1 :=
  ⟨by decide, calculateSimilarity_refl "Dolo" (by decide)⟩


/-! ## Generic lemmas about the embedded list operations -/

theorem mem_insertEnd {α : Type} (lt : α → α → Bool) (x y : α) (l : List α) :
    y ∈ insertEnd lt x l ↔ y = x ∨ y ∈ l := by
  induction l with
  | nil => simp [insertEnd]
  | cons a as ih =>
    rw [insertEnd]
    split
    · simp
    · simp [ih]
      tauto

theorem mem_stableSort_aux {α : Type} (lt : α → α → Bool) (y : α) :
    ∀ (l acc : List α),
      (y ∈ l.foldl (fun acc x => insertEnd lt x acc) acc ↔ y ∈ acc ∨ y ∈ l)
  | [], acc => by simp
  | a :: as, acc => by
    rw [List.foldl_cons, mem_stableSort_aux lt y as]
    rw [mem_insertEnd]
    simp
    tauto

theorem mem_stableSort {α : Type} (lt : α → α → Bool) (y : α) (l : List α) :
    y ∈ stableSort lt l ↔ y ∈ l := by
  rw [stableSort, mem_stableSort_aux]
  simp

theorem pairwise_insertEnd {α : Type} {lt : α → α → Bool}
    (trans : ∀ a b c, lt a b = true → lt b c = true → lt a c = true)
    (asymm : ∀ a b, lt a b = true → lt b a = false)
    (x : α) {l : List α} (h : l.Pairwise fun a b => lt b a = false) :
    (insertEnd lt x l).Pairwise fun a b => lt b a = false := by
  induction l with
  | nil => simp [insertEnd]
  | cons y ys ih =>
    rw [insertEnd]
    rcases List.pairwise_cons.mp h with ⟨hy, hys⟩
    split
    · next hlt =>
      refine List.pairwise_cons.mpr ⟨?_, h⟩
      intro z hz
      rcases List.mem_cons.mp hz with rfl | hz
      · exact asymm x z hlt
      · rcases hzx : lt z x with _ | _
        · rfl
        · have := trans z x y hzx hlt
          rw [hy z hz] at this
          exact this.symm
    · next hlt =>
      refine List.pairwise_cons.mpr ⟨?_, ih hys⟩
      intro w hw
      rcases (mem_insertEnd lt x w ys).mp hw with rfl | hw
      · exact Bool.not_eq_true _ ▸ (by simpa using hlt)
      · exact hy w hw

theorem pairwise_stableSort_aux {α : Type} {lt : α → α → Bool}
    (trans : ∀ a b c, lt a b = true → lt b c = true → lt a c = true)
    (asymm : ∀ a b, lt a b = true → lt b a = false) :
    ∀ (l acc : List α), (acc.Pairwise fun a b => lt b a = false) →
      (l.foldl (fun acc x => insertEnd lt x acc) acc).Pairwise fun a b => lt b a = false
  | [], acc, h => h
  | a :: as, acc, h => by
    rw [List.foldl_cons]
    exact pairwise_stableSort_aux trans asymm as _ (pairwise_insertEnd trans asymm a h)

theorem pairwise_stableSort {α : Type} {lt : α → α → Bool}
    (trans : ∀ a b c, lt a b = true → lt b c = true → lt a c = true)
    (asymm : ∀ a b, lt a b = true → lt b a = false) (l : List α) :
    (stableSort lt l).Pairwise fun a b => lt b a = false :=
  pairwise_stableSort_aux trans asymm l [] (by simp)

theorem mem_foldl_append {α β : Type} (g : β → List α) (y : α) :
    ∀ (l : List β) (init : List α),
      (y ∈ l.foldl (fun acc v => acc ++ g v) init ↔ y ∈ init ∨ ∃ v ∈ l, y ∈ g v)
  | [], init => by simp
  | b :: bs, init => by
    rw [List.foldl_cons, mem_foldl_append g y bs]
    simp
    tauto

/-! ## C7: fail-fast validation -/

/-- C7: for every catalog state, oracle, options and input whose trimmed
length is below 2 characters, `fuzzySearchMedicine` returns the
validation-error result (success `false`, confidence 0), whose message
differs from the no-match message; the result is the same constant for
every catalog, so no matching strategy or store query can influence it. -/
theorem fuzzySearch_validation (cat : List MedRecord) (o : TrgmOracle)
    (name : String) (opts : SearchOptions)
    (h : (jsTrim name).data.length < 2) :
    fuzzySearchMedicine cat o name opts = validationFailResult ∧
    validationFailResult.success = false ∧
    validationFailResult.confidence = 0 ∧
    validationFailResult.message ≠ noMatchResult.message := by
  refine ⟨?_, rfl, rfl, by decide⟩
  unfold fuzzySearchMedicine
  rw [if_pos (Or.inr h)]

/-- Witness for C7: the one-character query `"a"` against a nonempty
catalog. -/
theorem fuzzySearch_validation_witness :
    (jsTrim "a").data.length < 2 ∧
    fuzzySearchMedicine [recDolo] oracleEq "a" {} = validationFailResult :=
  ⟨by decide, (fuzzySearch_validation [recDolo] oracleEq "a" {} (by decide)).1⟩

/-! ## C10: empty batch input -/

/-- C10: `batchFuzzySearch` on an empty list returns the empty list for
every catalog state — not an error result — and, being a constant in the
catalog, issues no reference-store queries.  (A non-array input is not
expressible in a typed embedding; the surrounding API layer rejects
non-array and empty bodies with a 400 before this function is reached.) -/
theorem batchFuzzySearch_empty (cat : List MedRecord) (o : TrgmOracle)
    (opts : SearchOptions) :
    batchFuzzySearch cat o [] opts = [] := rfl

/-! ## C8: batch ordering and independence -/

/-- C8: `batchFuzzySearch` returns exactly one entry per input item, in
input order: the entry at position `i` carries the original `i`-th item,
index `i`, and the single-item result for that item's name with the
item's `medicine_salt` as `includeSalt`, overriding any batch-level
default.  Each entry depends only on its own item, so one item's failure
cannot alter any sibling entry. -/
theorem batchFuzzySearch_spec (cat : List MedRecord) (o : TrgmOracle)
    (medicines : List BatchItem) (opts : SearchOptions) :
    (batchFuzzySearch cat o medicines opts).length = medicines.length ∧
    ∀ i item, medicines[i]? = some item →
      (batchFuzzySearch cat o medicines opts)[i]? =
        some (⟨item,
          fuzzySearchMedicine cat o item.medicine_name
            { opts with includeSalt := item.medicine_salt }, i⟩ : BatchResult) := by
  unfold batchFuzzySearch
  split
  · next he =>
    rw [List.isEmpty_iff] at he
    subst he
    exact ⟨rfl, by intro i item h; simp at h⟩
  · refine ⟨by simp, ?_⟩
    intro i item h
    rw [List.getElem?_map, List.getElem?_enum, h]
    rfl

/-- Witness for C8: a three-item batch whose second name is below the
minimum length still yields its entry at position 1, resolved
independently. -/
theorem batchFuzzySearch_spec_witness :
    (batchFuzzySearch [recDolo] oracleEq
        [⟨"Dolo", none⟩, ⟨"a", none⟩, ⟨"Dolo", none⟩] {}).length = 3 ∧
    (batchFuzzySearch [recDolo] oracleEq
        [⟨"Dolo", none⟩, ⟨"a", none⟩, ⟨"Dolo", none⟩] {})[1]? =
      some (⟨⟨"a", none⟩,
        fuzzySearchMedicine [recDolo] oracleEq "a"
          { ({} : SearchOptions) with includeSalt := none }, 1⟩ : BatchResult) :=
  ⟨(batchFuzzySearch_spec [recDolo] oracleEq _ {}).1,
    (batchFuzzySearch_spec [recDolo] oracleEq _ {}).2 1 ⟨"a", none⟩ rfl⟩

/-! ## Arbiter lemmas -/

theorem activeFilter_iff (m : MedRecord) :
    activeFilter m = true ↔ m.is_active = 1 ∧ m.is_deactivated = 0 := by
  simp [activeFilter]

theorem tryExactMatch_spec (cat : List MedRecord) :
    ∀ (vs : List String) (r : SearchResult), tryExactMatch cat vs = some r →
      r.success = true ∧ r.confidence = 1 ∧ r.matchType = some "exact" ∧
      ∃ m ∈ cat, activeFilter m = true ∧ r.medMatch = some (formatMedicineResult m)
  | [], r => by simp [tryExactMatch]
  | v :: vs, r => by
    rw [tryExactMatch]
    split
    · next row rest hrow =>
      intro h
      injection h with h
      subst h
      refine ⟨rfl, rfl, rfl, row, ?_, ?_, rfl⟩
      · have hmem : row ∈ (stableSort (fun a b => wLt a.med_weightage b.med_weightage)
            (cat.filter fun m => activeFilter m && (lowerStr m.med_brand_name == lowerStr v))).take 1 := by
          rw [hrow]; exact List.mem_cons_self _ _
        have := (mem_stableSort _ _ _).mp (List.mem_of_mem_take hmem)
        exact (List.mem_filter.mp this).1
      · have hmem : row ∈ (stableSort (fun a b => wLt a.med_weightage b.med_weightage)
            (cat.filter fun m => activeFilter m && (lowerStr m.med_brand_name == lowerStr v))).take 1 := by
          rw [hrow]; exact List.mem_cons_self _ _
        have := (mem_stableSort _ _ _).mp (List.mem_of_mem_take hmem)
        exact (Bool.and_eq_true_iff.mp (List.mem_filter.mp this).2).1
    · exact tryExactMatch_spec cat vs r

theorem exactAttempt_some {cat : List MedRecord} {opts : SearchOptions}
    {name : String} {r : SearchResult} (h : exactAttempt cat opts name = some r) :
    tryExactMatch cat (generateMedicineNameVariations name) = some r := by
  unfold exactAttempt at h
  split at h
  · exact h
  · exact absurd h (by simp)

theorem candLt_iff (a b : FuzzyCand) :
    candLt a b = true ↔
      b.matchScore < a.matchScore ∨
      (a.matchScore = b.matchScore ∧ b.similarity < a.similarity) ∨
      (a.matchScore = b.matchScore ∧ a.similarity = b.similarity ∧
        b.medicine.med_weightage.getD 0 < a.medicine.med_weightage.getD 0) := by
  unfold candLt
  split
  · next h1 =>
    split
    · next h2 => simp [h1, h2]
    · next h2 => simp [h1, h2]
  · next h1 => simp [h1]

theorem candLt_trans (a b c : FuzzyCand)
    (hab : candLt a b = true) (hbc : candLt b c = true) : candLt a c = true := by
  rw [candLt_iff] at hab hbc ⊢
  rcases hab with h1 | ⟨e1, h1⟩ | ⟨e1, e1', h1⟩ <;>
    rcases hbc with h2 | ⟨e2, h2⟩ | ⟨e2, e2', h2⟩
  · exact Or.inl (by omega)
  · exact Or.inl (by omega)
  · exact Or.inl (by omega)
  · exact Or.inl (by omega)
  · exact Or.inr (Or.inl ⟨by omega, lt_trans h2 h1⟩)
  · exact Or.inr (Or.inl ⟨by omega, e2' ▸ h1⟩)
  · exact Or.inl (by omega)
  · exact Or.inr (Or.inl ⟨by omega, e1' ▸ h2⟩)
  · exact Or.inr (Or.inr ⟨by omega, e1'.trans e2', by omega⟩)

theorem candLt_asymm (a b : FuzzyCand) (h : candLt a b = true) :
    candLt b a = false := by
  rcases hba : candLt b a with _ | _
  · rfl
  · rw [candLt_iff] at h hba
    exfalso
    rcases h with h1 | ⟨e1, h1⟩ | ⟨e1, e1', h1⟩ <;>
      rcases hba with h2 | ⟨e2, h2⟩ | ⟨e2, e2', h2⟩ <;>
        first
          | omega
          | linarith

theorem sortedCandidates_score_pairwise (cat : List MedRecord) (o : TrgmOracle)
    (opts : SearchOptions) (name : String) :
    (sortedCandidates cat o opts name).Pairwise
      fun a b => b.matchScore ≤ a.matchScore := by
  have h := pairwise_stableSort candLt_trans candLt_asymm
    (mergedCandidates cat o opts name)
  refine List.Pairwise.imp ?_ h
  intro a b hab
  by_contra hlt
  have : candLt b a = true := by
    rw [candLt_iff]
    exact Or.inl (by omega)
  rw [hab] at this
  exact Bool.false_ne_true this

/-! ## C1: acceptance gate -/

/-- C1: for every catalog, oracle, name and options whose `minSimilarity`
lies in the API-enforced range (`≤ 1`): a success result's confidence is
at least `minSimilarity` and equals the winning candidate's similarity
(1 on the exact path, the sorted pool's head similarity otherwise); a
failure result has confidence 0; and when the exact step yields nothing
and the top-ranked candidate's similarity is below `minSimilarity`, the
result is the no-match failure rather than a low-quality guess. -/
theorem acceptance_gate (cat : List MedRecord) (o : TrgmOracle)
    (name : String) (opts : SearchOptions) (hmin : opts.minSimilarity ≤ 1) :
    ((fuzzySearchMedicine cat o name opts).success = true →
      opts.minSimilarity ≤ (fuzzySearchMedicine cat o name opts).confidence ∧
      ((fuzzySearchMedicine cat o name opts).matchType = some "exact" ∧
          (fuzzySearchMedicine cat o name opts).confidence = 1 ∨
        ∃ best rest, sortedCandidates cat o opts name = best :: rest ∧
          (fuzzySearchMedicine cat o name opts).confidence = best.similarity)) ∧
    ((fuzzySearchMedicine cat o name opts).success = false →
      (fuzzySearchMedicine cat o name opts).confidence = 0) ∧
    (∀ best rest, ¬(name = "" ∨ (jsTrim name).data.length < 2) →
      exactAttempt cat opts name = none →
      sortedCandidates cat o opts name = best :: rest →
      best.similarity < opts.minSimilarity →
      fuzzySearchMedicine cat o name opts = noMatchResult) := by
  unfold fuzzySearchMedicine
  by_cases hval : name = "" ∨ (jsTrim name).data.length < 2
  · rw [if_pos hval]
    refine ⟨fun h => absurd h (by simp [validationFailResult]), fun _ => rfl, ?_⟩
    intro best rest hval' _ _ _
    exact absurd hval hval'
  · rw [if_neg hval]
    cases hex : exactAttempt cat opts name with
    | some r0 =>
      dsimp only
      obtain ⟨hs, hc, hmt, -⟩ := tryExactMatch_spec cat _ r0 (exactAttempt_some hex)
      refine ⟨fun _ => ⟨hmin.trans_eq hc.symm, Or.inl ⟨hmt, hc⟩⟩, fun h => ?_, ?_⟩
      · rw [hs] at h; cases h
      · intro best rest _ hex' _ _
        cases hex'
    | none =>
      dsimp only
      cases hsc : sortedCandidates cat o opts name with
      | nil =>
        refine ⟨fun h => absurd h (by simp [noMatchResult]), fun _ => rfl, ?_⟩
        intro best rest _ _ hsc' _
        cases hsc'
      | cons best rest =>
        dsimp only
        by_cases hge : opts.minSimilarity ≤ best.similarity
        · rw [if_pos hge]
          refine ⟨fun _ => ⟨hge, Or.inr ⟨best, rest, rfl, rfl⟩⟩, fun h => ?_, ?_⟩
          · exact Bool.noConfusion h
          · intro best' rest' _ _ hsc' hlt
            injection hsc' with h1 _
            subst h1
            exact absurd hge (not_le.mpr hlt)
        · rw [if_neg hge]
          exact ⟨fun h => absurd h (by simp [noMatchResult]), fun _ => rfl,
            fun _ _ _ _ _ _ => rfl⟩

/-- Witness for C1 at the exact-path input `"Dolo"` with the default
options (`minSimilarity = 0.7`). -/
theorem acceptance_gate_witness :
    ({} : SearchOptions).minSimilarity ≤ 1 ∧
    ({} : SearchOptions).minSimilarity ≤
      (fuzzySearchMedicine [recDolo] oracleEq "Dolo" {}).confidence :=
  ⟨by with_unfolding_all decide,
    ((acceptance_gate [recDolo] oracleEq "Dolo" {}
      (by with_unfolding_all decide)).1 (by with_unfolding_all decide)).1⟩

/-! ## C4: composition fallback -/

/-- C4: the composition strategy contributes candidates exactly when a
composition/salt string was supplied (JS-truthy) and the fuzzy strategy
produced zero candidates; the sorted pool is ordered by strategy match
score first, so match score 100 ranks above the plain
composition-similarity score 80; and a winning candidate with match
score 100 that passes the similarity gate is returned with matchType
`"exact-composition"`. -/
theorem composition_fallback (cat : List MedRecord) (o : TrgmOracle)
    (name : String) (opts : SearchOptions) :
    (¬(jsTruthyS opts.includeSalt = true ∧ fuzzyPool cat opts name = []) →
      mergedCandidates cat o opts name = fuzzyPool cat opts name) ∧
    (jsTruthyS opts.includeSalt = true → fuzzyPool cat opts name = [] →
      mergedCandidates cat o opts name =
        tryCompositionSearch cat o opts.includeSalt opts.maxResults) ∧
    ((sortedCandidates cat o opts name).Pairwise
      fun a b => b.matchScore ≤ a.matchScore) ∧
    (∀ best rest, ¬(name = "" ∨ (jsTrim name).data.length < 2) →
      exactAttempt cat opts name = none →
      sortedCandidates cat o opts name = best :: rest →
      best.matchScore = 100 → opts.minSimilarity ≤ best.similarity →
      (fuzzySearchMedicine cat o name opts).matchType = some "exact-composition") := by
  refine ⟨?_, ?_, sortedCandidates_score_pairwise cat o opts name, ?_⟩
  · intro h
    unfold mergedCandidates
    dsimp only
    rw [if_neg (by
      intro hcond
      rcases Bool.and_eq_true_iff.mp hcond with ⟨h1, h2⟩
      exact h ⟨h1, List.isEmpty_iff.mp h2⟩)]
  · intro ht he
    unfold mergedCandidates
    dsimp only
    rw [if_pos (Bool.and_eq_true_iff.mpr ⟨ht, List.isEmpty_iff.mpr he⟩), he,
      List.nil_append]
  · intro best rest hval hex hsc h100 hge
    unfold fuzzySearchMedicine
    rw [if_neg hval, hex, hsc]
    dsimp only
    rw [if_pos hge]
    dsimp only
    rw [h100]
    rfl

/-- Witness for C4: a catalog whose only row matches the salt
`"para 500mg"` on composition name, strength and unit, queried with a
name that has no fuzzy brand hit, returns matchType
`"exact-composition"`. -/
theorem composition_fallback_witness :
    (fuzzySearchMedicine [recZzz] oracleEq "Qq"
        { includeSalt := some "para 500mg" }).matchType =
      some "exact-composition" :=
  (composition_fallback [recZzz] oracleEq "Qq"
      { includeSalt := some "para 500mg" }).2.2.2
    ⟨formatMedicineResult recZzz, (1 : ℚ), 100, "para 500mg"⟩ []
    (by decide) (by with_unfolding_all decide) (by with_unfolding_all decide)
    (by decide) (by with_unfolding_all decide)

/-! ## C9: soft-delete invariant -/

theorem fuzzyLike_mem_spec (cat : List MedRecord) (vs : List String) (n : Nat)
    {c : FuzzyCand} (hc : c ∈ tryFuzzyLikeSearch cat vs n) :
    ∃ m ∈ cat, activeFilter m = true ∧ c.medicine = formatMedicineResult m := by
  unfold tryFuzzyLikeSearch at hc
  rcases (mem_foldl_append _ c vs []).mp hc with h | ⟨v, _, hcv⟩
  · simp at h
  · rcases List.mem_map.mp hcv with ⟨p, hp, rfl⟩
    have hp' := (mem_stableSort _ _ _).mp (List.mem_of_mem_take hp)
    rcases List.mem_map.mp hp' with ⟨m, hm, rfl⟩
    have hmf := List.mem_filter.mp hm
    exact ⟨m, hmf.1, (Bool.and_eq_true_iff.mp hmf.2).1, rfl⟩

theorem composition_mem_spec (cat : List MedRecord) (o : TrgmOracle)
    (salt : Option String) (n : Nat) {c : FuzzyCand}
    (hc : c ∈ tryCompositionSearch cat o salt n) :
    ∃ m ∈ cat, activeFilter m = true ∧ c.medicine = formatMedicineResult m := by
  rcases salt with _ | saltStr
  · simp [tryCompositionSearch] at hc
  · simp only [tryCompositionSearch] at hc
    by_cases hs0 : saltStr = ""
    · rw [if_pos hs0] at hc
      simp at hc
    · rw [if_neg hs0] at hc
      by_cases hstr : (jsTruthyS (extractStrengthFromName saltStr).strength &&
          jsTruthyS (extractStrengthFromName saltStr).unit) = true
      · rw [if_pos hstr] at hc
        rcases List.mem_map.mp hc with ⟨p, hp, rfl⟩
        have hp' := (mem_stableSort _ _ _).mp (List.mem_of_mem_take hp)
        rcases List.mem_map.mp hp' with ⟨m, hm, rfl⟩
        have hmf := List.mem_filter.mp (List.mem_dedup.mp hm)
        exact ⟨m, hmf.1, (Bool.and_eq_true_iff.mp hmf.2).1, rfl⟩
      · rw [if_neg hstr] at hc
        rcases List.mem_map.mp hc with ⟨p, hp, rfl⟩
        have hp' := (mem_stableSort _ _ _).mp (List.mem_of_mem_take hp)
        rcases List.mem_map.mp hp' with ⟨m, hm, rfl⟩
        have hmf := List.mem_filter.mp (List.mem_dedup.mp hm)
        exact ⟨m, hmf.1, (Bool.and_eq_true_iff.mp hmf.2).1, rfl⟩

theorem mergedCandidates_mem (cat : List MedRecord) (o : TrgmOracle)
    (opts : SearchOptions) (name : String) {c : FuzzyCand}
    (hc : c ∈ mergedCandidates cat o opts name) :
    c ∈ fuzzyPool cat opts name ∨
      c ∈ tryCompositionSearch cat o opts.includeSalt opts.maxResults := by
  unfold mergedCandidates at hc
  dsimp only at hc
  split at hc
  · exact List.mem_append.mp hc
  · exact Or.inl hc

/-- C9: every candidate or final match produced by any strategy — the
exact lookup, the fuzzy LIKE search, the composition trigram search, or
the full resolver — originates from a catalog record with
`is_active = 1` and `is_deactivated = 0`; a record with `is_active = 0`
or `is_deactivated = 1` is never returned, even on exact brand-name
equality, because every embedded query carries the soft-delete filter. -/
theorem soft_delete_invariant (cat : List MedRecord) (o : TrgmOracle)
    (vs : List String) (n : Nat) (salt : Option String)
    (name : String) (opts : SearchOptions) :
    (∀ r, tryExactMatch cat vs = some r → ∀ fm, r.medMatch = some fm →
      ∃ m ∈ cat, m.is_active = 1 ∧ m.is_deactivated = 0 ∧
        fm = formatMedicineResult m) ∧
    (∀ c ∈ tryFuzzyLikeSearch cat vs n,
      ∃ m ∈ cat, m.is_active = 1 ∧ m.is_deactivated = 0 ∧
        c.medicine = formatMedicineResult m) ∧
    (∀ c ∈ tryCompositionSearch cat o salt n,
      ∃ m ∈ cat, m.is_active = 1 ∧ m.is_deactivated = 0 ∧
        c.medicine = formatMedicineResult m) ∧
    (∀ fm, (fuzzySearchMedicine cat o name opts).medMatch = some fm →
      ∃ m ∈ cat, m.is_active = 1 ∧ m.is_deactivated = 0 ∧
        fm = formatMedicineResult m) := by
  refine ⟨?_, ?_, ?_, ?_⟩
  · intro r hr fm hfm
    obtain ⟨-, -, -, m, hm, hact, hmed⟩ := tryExactMatch_spec cat vs r hr
    obtain ⟨ha, hd⟩ := (activeFilter_iff m).mp hact
    have h := hfm.symm.trans hmed
    injection h with h
    exact ⟨m, hm, ha, hd, h⟩
  · intro c hc
    obtain ⟨m, hm, hact, hmed⟩ := fuzzyLike_mem_spec cat vs n hc
    obtain ⟨ha, hd⟩ := (activeFilter_iff m).mp hact
    exact ⟨m, hm, ha, hd, hmed⟩
  · intro c hc
    obtain ⟨m, hm, hact, hmed⟩ := composition_mem_spec cat o salt n hc
    obtain ⟨ha, hd⟩ := (activeFilter_iff m).mp hact
    exact ⟨m, hm, ha, hd, hmed⟩
  · unfold fuzzySearchMedicine
    by_cases hval : name = "" ∨ (jsTrim name).data.length < 2
    · rw [if_pos hval]
      intro fm h
      exact absurd h (by simp [validationFailResult])
    · rw [if_neg hval]
      cases hex : exactAttempt cat opts name with
      | some r0 =>
        dsimp only
        intro fm hfm
        obtain ⟨-, -, -, m, hm, hact, hmed⟩ :=
          tryExactMatch_spec cat _ r0 (exactAttempt_some hex)
        obtain ⟨ha, hd⟩ := (activeFilter_iff m).mp hact
        have h := hfm.symm.trans hmed
        injection h with h
        exact ⟨m, hm, ha, hd, h⟩
      | none =>
        dsimp only
        cases hsc : sortedCandidates cat o opts name with
        | nil =>
          intro fm h
          exact absurd h (by simp [noMatchResult])
        | cons best rest =>
          dsimp only
          by_cases hge : opts.minSimilarity ≤ best.similarity
          · rw [if_pos hge]
            intro fm hfm
            injection hfm with hfm
            have hbest : best ∈ sortedCandidates cat o opts name := by
              rw [hsc]; exact List.mem_cons_self _ _
            have hmerged := (mem_stableSort _ _ _).mp hbest
            rcases mergedCandidates_mem cat o opts name hmerged with hf | hcmp
            · obtain ⟨m, hm, hact, hmed⟩ :=
                fuzzyLike_mem_spec cat (generateMedicineNameVariations name)
                  opts.maxResults hf
              obtain ⟨ha, hd⟩ := (activeFilter_iff m).mp hact
              exact ⟨m, hm, ha, hd, hfm ▸ hmed⟩
            · obtain ⟨m, hm, hact, hmed⟩ :=
                composition_mem_spec cat o opts.includeSalt opts.maxResults hcmp
              obtain ⟨ha, hd⟩ := (activeFilter_iff m).mp hact
              exact ⟨m, hm, ha, hd, hfm ▸ hmed⟩
          · rw [if_neg hge]
            intro fm h
            exact absurd h (by simp [noMatchResult])

/-- Witness for C9: the final-resolver clause applied to an exact hit on
an active record. -/
theorem soft_delete_invariant_witness :
    ∃ m ∈ [recDolo], m.is_active = 1 ∧ m.is_deactivated = 0 ∧
      formatMedicineResult recDolo = formatMedicineResult m :=
  (soft_delete_invariant [recDolo] oracleEq [] 0 none "Dolo" {}).2.2.2
    (formatMedicineResult recDolo) (by with_unfolding_all decide)

/-! ## C5: DosageExtractor lemmas -/

theorem toLower_eq_self {c : Char} (h : c.toNat < 65 ∨ 90 < c.toNat) :
    c.toLower = c := by
  unfold Char.toLower
  rw [if_neg (by omega)]

theorem isDigitC_toNat {c : Char} (h : isDigitC c = true) :
    48 ≤ c.toNat ∧ c.toNat ≤ 57 := by
  unfold isDigitC Char.isDigit at h
  rcases Bool.and_eq_true_iff.mp h with ⟨h1, h2⟩
  have g1 : (48 : UInt32) ≤ c.val := of_decide_eq_true h1
  have g2 : c.val ≤ (57 : UInt32) := of_decide_eq_true h2
  exact ⟨UInt32.le_toNat_of_le (by norm_num [UInt32.size]) g1,
    UInt32.toNat_le_of_le (by norm_num [UInt32.size]) g2⟩

theorem isDigitC_toLower {c : Char} (h : isDigitC c = true) : c.toLower = c :=
  toLower_eq_self (by have := isDigitC_toNat h; omega)

theorem isWs_cases {c : Char} (h : isWs c = true) :
    c = ' ' ∨ c = '\t' ∨ c = '\n' ∨ c = '\r' ∨ c = '\x0b' ∨ c = '\x0c' := by
  unfold isWs at h
  simp only [Bool.or_eq_true, decide_eq_true_eq] at h
  tauto

theorem isWs_toLower {c : Char} (h : isWs c = true) : c.toLower = c := by
  rcases isWs_cases h with rfl | rfl | rfl | rfl | rfl | rfl <;> decide

theorem isWs_not_digit {c : Char} (h : isWs c = true) : isDigitC c = false := by
  rcases isWs_cases h with rfl | rfl | rfl | rfl | rfl | rfl <;> decide

theorem isWs_not_dot {c : Char} (h : isWs c = true) : c ≠ '.' := by
  rcases isWs_cases h with rfl | rfl | rfl | rfl | rfl | rfl <;> decide

theorem isDigitC_not_ws {c : Char} (h : isDigitC c = true) : isWs c = false := by
  cases hw : isWs c with
  | false => rfl
  | true => rw [isWs_not_digit hw] at h; cases h

theorem map_toLower_numtoken {l : List Char}
    (h : ∀ c ∈ l, isDigitC c = true ∨ c = '.') : l.map Char.toLower = l := by
  induction l with
  | nil => rfl
  | cons c cs ih =>
    rw [List.map_cons, ih fun x hx => h x (List.mem_cons_of_mem c hx)]
    rcases h c (List.mem_cons_self c cs) with hd | rfl
    · rw [isDigitC_toLower hd]
    · rfl

theorem map_toLower_ws {l : List Char} (h : ∀ c ∈ l, isWs c = true) :
    l.map Char.toLower = l := by
  induction l with
  | nil => rfl
  | cons c cs ih =>
    rw [List.map_cons, ih fun x hx => h x (List.mem_cons_of_mem c hx),
      isWs_toLower (h c (List.mem_cons_self c cs))]

theorem takeWhile_dropWhile_append {p : Char → Bool} :
    ∀ (l r : List Char), (∀ c ∈ l, p c = true) →
      (∀ c cs, r = c :: cs → p c = false) →
      (l ++ r).takeWhile p = l ∧ (l ++ r).dropWhile p = r
  | [], r, _, hr => by
    cases r with
    | nil => simp
    | cons c cs =>
      rw [List.nil_append, List.takeWhile_cons, List.dropWhile_cons]
      simp [hr c cs rfl]
  | a :: l, r, hl, hr => by
    have ha := hl a (List.mem_cons_self a l)
    have ih := takeWhile_dropWhile_append l r
      (fun c hc => hl c (List.mem_cons_of_mem a hc)) hr
    rw [List.cons_append, List.takeWhile_cons, List.dropWhile_cons]
    simp [ha, ih.1, ih.2]

theorem dropWhile_eq_self {p : Char → Bool} {l : List Char}
    (h : ∀ c cs, l = c :: cs → p c = false) : l.dropWhile p = l := by
  cases l with
  | nil => rfl
  | cons c cs => rw [List.dropWhile_cons]; simp [h c cs rfl]

theorem trimL_eq_self {l : List Char}
    (h1 : ∀ c cs, l = c :: cs → isWs c = false)
    (h2 : ∀ c cs, l.reverse = c :: cs → isWs c = false) : trimL l = l := by
  unfold trimL
  rw [dropWhile_eq_self h1, dropWhile_eq_self h2, List.reverse_reverse]

theorem doseUnits_ne_nil : ∀ a ∈ doseUnits, a ≠ [] := by decide

theorem tryUnits_self : ∀ a ∈ doseUnits, tryUnits doseUnits a = some (a, []) := by
  decide

theorem doseUnits_map_toLower : ∀ a ∈ doseUnits, a.map Char.toLower = a := by decide

theorem doseUnits_head_facts : ∀ a ∈ doseUnits,
    isDigitC (a.headD 'x') = false ∧ a.headD 'x' ≠ '.' ∧
      isWs (a.headD 'x') = false := by decide

theorem doseUnits_last_ws : ∀ a ∈ doseUnits, isWs (a.reverse.headD 'x') = false := by
  decide

theorem tryUnits_sound :
    ∀ {alts : List (List Char)} {l u rest : List Char},
      (∀ a ∈ alts, a ≠ []) → tryUnits alts l = some (u, rest) →
      l = u ++ rest ∧ u.map Char.toLower ∈ alts ∧ u ≠ []
  | [], l, u, rest, _, h => by simp [tryUnits] at h
  | alt :: alts, l, u, rest, hne, h => by
    rw [tryUnits] at h
    split at h
    · next hcond =>
      simp only [Option.some.injEq, Prod.mk.injEq] at h
      obtain ⟨h1, h2⟩ := h
      subst h1
      subst h2
      refine ⟨(List.take_append_drop _ l).symm, ?_, ?_⟩
      · rw [hcond]; exact List.mem_cons_self _ _
      · intro h0
        rw [h0] at hcond
        exact hne alt (List.mem_cons_self _ _) hcond.symm
    · have ih := tryUnits_sound (fun a ha => hne a (List.mem_cons_of_mem _ ha)) h
      exact ⟨ih.1, List.mem_cons_of_mem _ ih.2.1, ih.2.2⟩

theorem tryUnits_head_ne :
    ∀ {alts : List (List Char)} {c : Char} {cs : List Char},
      (∀ a ∈ alts, a ≠ [] ∧ c.toLower ≠ a.headD 'x') →
      tryUnits alts (c :: cs) = none
  | [], _, _, _ => rfl
  | alt :: alts, c, cs, h => by
    rw [tryUnits]
    split
    · next heq =>
      exfalso
      obtain ⟨hne, hhd⟩ := h alt (List.mem_cons_self _ _)
      rcases alt with _ | ⟨a0, alt'⟩
      · exact hne rfl
      · rw [show (a0 :: alt').length = alt'.length + 1 from rfl,
          List.take_succ_cons, List.map_cons] at heq
        injection heq with heq1 _
        exact hhd heq1
    · exact tryUnits_head_ne fun a ha => h a (List.mem_cons_of_mem _ ha)

theorem tryUnits_none_digit {c : Char} {cs : List Char} (h : isDigitC c = true) :
    tryUnits doseUnits (c :: cs) = none := by
  apply tryUnits_head_ne
  intro a ha
  refine ⟨doseUnits_ne_nil a ha, ?_⟩
  rw [isDigitC_toLower h]
  intro hc
  have h2 := hc ▸ h
  rw [(doseUnits_head_facts a ha).1] at h2
  cases h2

theorem tryUnits_none_ws {c : Char} {cs : List Char} (h : isWs c = true) :
    tryUnits doseUnits (c :: cs) = none := by
  apply tryUnits_head_ne
  intro a ha
  refine ⟨doseUnits_ne_nil a ha, ?_⟩
  rw [isWs_toLower h]
  intro hc
  have h2 := hc ▸ h
  rw [(doseUnits_head_facts a ha).2.2] at h2
  cases h2

theorem tryUnits_none_dot {cs : List Char} :
    tryUnits doseUnits ('.' :: cs) = none := by
  apply tryUnits_head_ne
  intro a ha
  refine ⟨doseUnits_ne_nil a ha, ?_⟩
  rw [show ('.' : Char).toLower = '.' from by decide]
  exact fun hc => (doseUnits_head_facts a ha).2.1 hc.symm

theorem findUnit_skip :
    ∀ (pre : List Char) {c : Char} {cs u tail : List Char},
      (∀ x ∈ pre, isDigitC x = true ∨ isWs x = true ∨ x = '.') →
      tryUnits doseUnits (c :: cs) = some (u, tail) →
      findUnit (pre ++ c :: cs) = some u
  | [], c, cs, u, tail, _, hu => by
    rw [List.nil_append, findUnit, hu]
  | p :: pre, c, cs, u, tail, hpre, hu => by
    rw [List.cons_append, findUnit]
    have hnone : tryUnits doseUnits (p :: (pre ++ c :: cs)) = none := by
      rcases hpre p (List.mem_cons_self _ _) with hd | hw | rfl
      · exact tryUnits_none_digit hd
      · exact tryUnits_none_ws hw
      · exact tryUnits_none_dot
    rw [hnone]
    exact findUnit_skip pre (fun x hx => hpre x (List.mem_cons_of_mem _ hx)) hu

theorem findNum_int {r : List Char} (d : Char) (ds' : List Char)
    (hdig : ∀ c ∈ d :: ds', isDigitC c = true)
    (hr : ∀ c cs, r = c :: cs → isDigitC c = false ∧ c ≠ '.') :
    findNum ((d :: ds') ++ r) = some (d :: ds') := by
  have htd := takeWhile_dropWhile_append (d :: ds') r hdig
    fun c cs h => (hr c cs h).1
  rw [List.cons_append, findNum, if_pos (hdig d (List.mem_cons_self _ _))]
  rw [← List.cons_append, htd.1, htd.2]
  dsimp only
  cases r with
  | nil => rfl
  | cons c cs =>
    have hc := hr c cs rfl
    split
    · next heq =>
      injection heq with h1 _
      exact absurd h1 hc.2
    · rfl

theorem findNum_dec {r : List Char} (d d2 : Char) (ds' ds2' : List Char)
    (hdig : ∀ c ∈ d :: ds', isDigitC c = true)
    (hdig2 : ∀ c ∈ d2 :: ds2', isDigitC c = true)
    (hr : ∀ c cs, r = c :: cs → isDigitC c = false) :
    findNum ((d :: ds') ++ '.' :: ((d2 :: ds2') ++ r)) =
      some ((d :: ds') ++ '.' :: (d2 :: ds2')) := by
  have htd := takeWhile_dropWhile_append (d :: ds') ('.' :: ((d2 :: ds2') ++ r))
    hdig (by intro c cs h; injection h with h1 _; subst h1; decide)
  have htd2 := takeWhile_dropWhile_append (d2 :: ds2') r hdig2 hr
  rw [List.cons_append, findNum, if_pos (hdig d (List.mem_cons_self _ _))]
  rw [← List.cons_append, htd.1, htd.2]
  dsimp only
  split
  · next r2 heq =>
    injection heq with _ h2
    subst h2
    rw [htd2.1]
    rfl
  · next hcon => exact absurd rfl (hcon _)

theorem tryWsUnit_sound {l w u rest : List Char}
    (h : tryWsUnit l = some (w, u, rest)) :
    (∀ c ∈ w, isWs c = true) ∧ u.map Char.toLower ∈ doseUnits ∧ u ≠ [] := by
  unfold tryWsUnit at h
  cases htu : tryUnits doseUnits (l.dropWhile isWs) with
  | none => rw [htu] at h; cases h
  | some p =>
    obtain ⟨u0, r0⟩ := p
    rw [htu] at h
    simp only [Option.some.injEq, Prod.mk.injEq] at h
    obtain ⟨h1, h2, h3⟩ := h
    subst h1; subst h2; subst h3
    have hs := tryUnits_sound doseUnits_ne_nil htu
    exact ⟨fun c hc => List.mem_takeWhile_imp hc, hs.2.1, hs.2.2⟩

theorem tryDoseAt_sound {l n w u rest : List Char}
    (h : tryDoseAt l = some (n, w, u, rest)) :
    (∃ ds, (∀ c ∈ ds, isDigitC c = true) ∧ (∃ d t, ds = d :: t) ∧
      (n = ds ∨ ∃ ds2, (∀ c ∈ ds2, isDigitC c = true) ∧ (∃ d2 t2, ds2 = d2 :: t2) ∧
        n = ds ++ '.' :: ds2)) ∧
    (∀ c ∈ w, isWs c = true) ∧ u.map Char.toLower ∈ doseUnits ∧ u ≠ [] := by
  simp only [tryDoseAt] at h
  split at h
  · cases h
  · next hne =>
    have hds : ∀ c ∈ l.takeWhile isDigitC, isDigitC c = true :=
      fun c hc => List.mem_takeWhile_imp hc
    have hdshape : ∃ d t, l.takeWhile isDigitC = d :: t := by
      rcases hl : l.takeWhile isDigitC with _ | ⟨d, t⟩
      · rw [hl] at hne; exact absurd rfl hne
      · exact ⟨d, t, rfl⟩
    split at h
    · next r2 heq =>
      split at h
      · next hds2 =>
        cases htw : tryWsUnit (l.dropWhile isDigitC) with
        | none => rw [htw] at h; cases h
        | some p =>
          obtain ⟨w0, u0, r0⟩ := p
          rw [htw] at h
          simp only [Option.some.injEq, Prod.mk.injEq] at h
          obtain ⟨h1, h2, h3, h4⟩ := h
          subst h1; subst h2; subst h3
          have hws := tryWsUnit_sound htw
          exact ⟨⟨l.takeWhile isDigitC, hds, hdshape, Or.inl rfl⟩, hws⟩
      · next hds2 =>
        cases htw3 : tryWsUnit (r2.dropWhile isDigitC) with
        | some p =>
          obtain ⟨w0, u0, r0⟩ := p
          rw [htw3] at h
          simp only [Option.some.injEq, Prod.mk.injEq] at h
          obtain ⟨h1, h2, h3, h4⟩ := h
          subst h1; subst h2; subst h3
          have hws := tryWsUnit_sound htw3
          refine ⟨⟨l.takeWhile isDigitC, hds, hdshape,
            Or.inr ⟨r2.takeWhile isDigitC, fun c hc => List.mem_takeWhile_imp hc,
              ?_, rfl⟩⟩, hws⟩
          rcases hl2 : r2.takeWhile isDigitC with _ | ⟨d2, t2⟩
          · exact absurd (by rw [hl2]; rfl) hds2
          · exact ⟨d2, t2, rfl⟩
        | none =>
          rw [htw3] at h
          cases htw : tryWsUnit (l.dropWhile isDigitC) with
          | none => rw [htw] at h; cases h
          | some p =>
            obtain ⟨w0, u0, r0⟩ := p
            rw [htw] at h
            simp only [Option.some.injEq, Prod.mk.injEq] at h
            obtain ⟨h1, h2, h3, h4⟩ := h
            subst h1; subst h2; subst h3
            have hws := tryWsUnit_sound htw
            exact ⟨⟨l.takeWhile isDigitC, hds, hdshape, Or.inl rfl⟩, hws⟩
    · cases htw : tryWsUnit (l.dropWhile isDigitC) with
      | none => rw [htw] at h; cases h
      | some p =>
        obtain ⟨w0, u0, r0⟩ := p
        rw [htw] at h
        simp only [Option.some.injEq, Prod.mk.injEq] at h
        obtain ⟨h1, h2, h3, h4⟩ := h
        subst h1; subst h2; subst h3
        have hws := tryWsUnit_sound htw
        exact ⟨⟨l.takeWhile isDigitC, hds, hdshape, Or.inl rfl⟩, hws⟩

theorem findDose_sound :
    ∀ {l n w u : List Char}, findDose l = some (n, w, u) →
      ∃ l' rest, tryDoseAt l' = some (n, w, u, rest)
  | [], n, w, u, h => by simp [findDose] at h
  | c :: cs, n, w, u, h => by
    rw [findDose] at h
    cases ht : tryDoseAt (c :: cs) with
    | some q =>
      obtain ⟨n0, w0, u0, r0⟩ := q
      rw [ht] at h
      simp only [Option.some.injEq, Prod.mk.injEq] at h
      obtain ⟨h1, h2, h3⟩ := h
      subst h1; subst h2; subst h3
      exact ⟨c :: cs, r0, ht⟩
    | none =>
      rw [ht] at h
      exact findDose_sound h

/-- C5 counterexample: `"Dolo 650 mg"` contains no numeric token
**immediately** followed by a unit (the claim's pattern), so the claim
predicts the trimmed input with absent strength/unit; but the regex
allows `\s*` between number and unit, so the code extracts strength
`"650"`, unit `"mg"`, and removes the token from the name. -/
theorem extractStrength_cex :
    hasTightDose ("Dolo 650 mg").data = false ∧
    extractStrengthFromName "Dolo 650 mg" =
      ⟨"Dolo", some "650", some "mg", some "650 mg"⟩ ∧
    extractStrengthFromName "Dolo 650 mg" ≠
      ⟨jsTrim "Dolo 650 mg", none, none, none⟩ := by
  decide

/-- C5 (amended): `extractStrengthFromName` matches a numeric token
followed by **optional whitespace** and a unit; on `"Paracetamol 500mg"`
it yields base name `"Paracetamol"`, strength `"500"`, unit `"mg"`; when
no such pattern occurs anywhere it returns the trimmed input with absent
fields; and when the leftmost match is `(n, w, u)` the result's base
name is the input with **all** matches removed and then trimmed (internal
whitespace is not collapsed), the strength is the match's numeric token,
the unit is its lowercased unit, and `fullDose` is the lowercased
matched text. -/
theorem extractStrength_amended (s : String) :
    (extractStrengthFromName "Paracetamol 500mg" =
      ⟨"Paracetamol", some "500", some "mg", some "500mg"⟩) ∧
    (findDose s.data = none →
      extractStrengthFromName s = ⟨jsTrim s, none, none, none⟩) ∧
    (∀ n w u, findDose s.data = some (n, w, u) →
      extractStrengthFromName s =
        ⟨⟨trimL (removeDoses s.data)⟩, some ⟨n⟩, some ⟨u.map Char.toLower⟩,
          some ⟨(n ++ w ++ u).map Char.toLower⟩⟩) := by
  refine ⟨by decide, ?_, ?_⟩
  · intro h
    unfold extractStrengthFromName
    by_cases hs : s = ""
    · subst hs; decide
    · rw [if_neg hs, h]
  · intro n w u h
    obtain ⟨l', rest, ht⟩ := findDose_sound h
    obtain ⟨⟨ds, hdsdig, ⟨d, t, hds⟩, hshape⟩, hw, humem, hune⟩ := tryDoseAt_sound ht
    have hs : s ≠ "" := by
      intro hs
      subst hs
      rw [show ("" : String).data = [] from rfl] at h
      simp [findDose] at h
    have hnchars : ∀ c ∈ n, isDigitC c = true ∨ c = '.' := by
      intro c hc
      rcases hshape with rfl | ⟨ds2, hds2dig, ⟨d2, t2, hds2⟩, rfl⟩
      · exact Or.inl (hdsdig c hc)
      · rcases List.mem_append.mp hc with h1 | h1
        · exact Or.inl (hdsdig c h1)
        · rcases List.mem_cons.mp h1 with rfl | h1
          · exact Or.inr rfl
          · exact Or.inl (hds2dig c h1)
    have hnhead : ∃ nt, n = d :: nt := by
      rcases hshape with rfl | ⟨ds2, _, _, rfl⟩
      · rw [hds]; exact ⟨t, rfl⟩
      · rw [hds]; exact ⟨t ++ '.' :: ds2, rfl⟩
    have hu'mem : u.map Char.toLower ∈ doseUnits := humem
    have hu'ne : u.map Char.toLower ≠ [] := by
      intro h0
      exact hune (List.map_eq_nil_iff.mp h0)
    obtain ⟨c0, cs0, hu'eq⟩ : ∃ c0 cs0, u.map Char.toLower = c0 :: cs0 := by
      rcases hc : u.map Char.toLower with _ | ⟨a, b⟩
      · exact absurd hc hu'ne
      · exact ⟨a, b, rfl⟩
    obtain ⟨e0, es0, hveq⟩ : ∃ e0 es0, (u.map Char.toLower).reverse = e0 :: es0 := by
      rcases hrv : (u.map Char.toLower).reverse with _ | ⟨a, b⟩
      · rw [List.reverse_eq_nil_iff] at hrv
        exact absurd hrv hu'ne
      · exact ⟨a, b, rfl⟩
    have hnlower : n.map Char.toLower = n := map_toLower_numtoken hnchars
    have hwlower : w.map Char.toLower = w := map_toLower_ws hw
    have hfull : (n ++ w ++ u).map Char.toLower = n ++ (w ++ u.map Char.toLower) := by
      rw [List.map_append, List.map_append, hnlower, hwlower, List.append_assoc]
    have hdd : isDigitC d = true := by
      apply hdsdig
      rw [hds]
      exact List.mem_cons_self _ _
    have hrnext : ∀ c cs, w ++ u.map Char.toLower = c :: cs →
        isDigitC c = false ∧ c ≠ '.' := by
      intro c cs hc
      cases w with
      | nil =>
        rw [List.nil_append] at hc
        have hfacts := doseUnits_head_facts _ hu'mem
        rw [hc] at hfacts
        exact ⟨hfacts.1, hfacts.2.1⟩
      | cons cw wt =>
        rw [List.cons_append] at hc
        injection hc with h1 _
        rw [← h1]
        have hcw := hw cw (List.mem_cons_self _ _)
        exact ⟨isWs_not_digit hcw, isWs_not_dot hcw⟩
    have htrim : trimL ((n ++ w ++ u).map Char.toLower) =
        (n ++ w ++ u).map Char.toLower := by
      apply trimL_eq_self
      · intro c cs hc
        rw [hfull] at hc
        obtain ⟨nt, hn⟩ := hnhead
        rw [hn, List.cons_append] at hc
        injection hc with h1 _
        rw [← h1]
        exact isDigitC_not_ws hdd
      · intro c cs hc
        rw [hfull, ← List.append_assoc, List.reverse_append, hveq,
          List.cons_append] at hc
        injection hc with h1 _
        rw [← h1]
        have hlast := doseUnits_last_ws _ hu'mem
        rw [hveq] at hlast
        exact hlast
    have hpre : ∀ x ∈ n ++ w, isDigitC x = true ∨ isWs x = true ∨ x = '.' := by
      intro x hx
      rcases List.mem_append.mp hx with h1 | h1
      · rcases hnchars x h1 with hd | rfl
        · exact Or.inl hd
        · exact Or.inr (Or.inr rfl)
      · exact Or.inr (Or.inl (hw x h1))
    have htry : tryUnits doseUnits (c0 :: cs0) = some (c0 :: cs0, []) := by
      rw [← hu'eq]
      exact tryUnits_self _ hu'mem
    have hunit : Option.map (fun l => lowerStr ⟨l⟩)
        (findUnit (n ++ (w ++ u.map Char.toLower))) =
          some ⟨u.map Char.toLower⟩ := by
      rw [← List.append_assoc, hu'eq, findUnit_skip (n ++ w) hpre htry, ← hu'eq]
      show some (lowerStr ⟨u.map Char.toLower⟩) = some ⟨u.map Char.toLower⟩
      unfold lowerStr
      rw [show (⟨u.map Char.toLower⟩ : String).data = u.map Char.toLower from rfl,
        doseUnits_map_toLower _ hu'mem]
    have hstr : Option.map (fun l => (⟨l⟩ : String))
        (findNum (n ++ (w ++ u.map Char.toLower))) = some ⟨n⟩ := by
      rcases hshape with rfl | ⟨ds2, hds2dig, ⟨d2, t2, hds2⟩, rfl⟩
      · rw [hds, findNum_int d t (hds ▸ hdsdig) hrnext]
        rfl
      · rw [hds, hds2, List.append_assoc,
          List.cons_append '.' (d2 :: t2) (w ++ List.map Char.toLower u),
          findNum_dec d d2 t t2 (hds ▸ hdsdig) (hds2 ▸ hds2dig)
            (fun c cs hc => (hrnext c cs hc).1)]
        rfl
    unfold extractStrengthFromName
    rw [if_neg hs, h]
    dsimp only
    rw [htrim, hfull, hstr, hunit]

/-- Witness for C5 (amended) on `"Para 500mg Tab"`, whose leftmost dose
match is `("500", "", "mg")`; the base name keeps the double internal
space. -/
theorem extractStrength_amended_witness :
    findDose ("Para 500mg Tab").data = some (['5','0','0'], [], ['m','g']) ∧
    extractStrengthFromName "Para 500mg Tab" =
      ⟨⟨trimL (removeDoses ("Para 500mg Tab").data)⟩, some ⟨['5','0','0']⟩,
        some ⟨(['m','g']).map Char.toLower⟩,
        some ⟨((['5','0','0'] ++ [] ++ ['m','g'])).map Char.toLower⟩⟩ :=
  ⟨by decide, (extractStrength_amended "Para 500mg Tab").2.2
    ['5','0','0'] [] ['m','g'] (by decide)⟩

/-! ## C6: NameNormalizer suffix stripping -/

theorem mem_addUniq_self (l : List String) (s : String) : s ∈ addUniq l s := by
  unfold addUniq
  split
  · assumption
  · exact List.mem_append_right _ (List.mem_singleton_self s)

theorem mem_addUniq_of_mem {l : List String} {x : String} (h : x ∈ l)
    (s : String) : x ∈ addUniq l s := by
  unfold addUniq
  split
  · exact h
  · exact List.mem_append_left _ h

theorem mem_ite_addUniq2 {v : List String} {x : String} (h : x ∈ v)
    (c : Prop) [Decidable c] (a b : String) :
    x ∈ (if c then addUniq (addUniq v a) b else v) := by
  split
  · exact mem_addUniq_of_mem (mem_addUniq_of_mem h a) b
  · exact h

theorem mem_ite_addUniq3 {v : List String} {x : String} (h : x ∈ v)
    (c : Prop) [Decidable c] (a b d : String) :
    x ∈ (if c then addUniq (addUniq (addUniq v a) b) d else v) := by
  split
  · exact mem_addUniq_of_mem (mem_addUniq_of_mem (mem_addUniq_of_mem h a) b) d
  · exact h

theorem mem_ocrAdds {v : List String} {x : String} (h : x ∈ v) (b : String) :
    x ∈ ocrAdds v b :=
  mem_ite_addUniq2 (mem_ite_addUniq3 (mem_ite_addUniq2 h _ _ _) _ _ _ _) _ _ _

theorem mem_foldl_ocrAdds {x : String} :
    ∀ (bases v : List String), x ∈ v → x ∈ bases.foldl ocrAdds v
  | [], _, h => h
  | b :: bs, v, h => mem_foldl_ocrAdds bs (ocrAdds v b) (mem_ocrAdds h b)

/-- C6 counterexample: `"a tablet"` ends in the suffix `tablet` and its
stripped form `"a"` differs from the lowercase input, yet `"a"` is not
among the generated variations — the final length-2 filter removes it. -/
theorem suffixStrip_cex :
    removeSuffixes (jsTrim "a tablet") = "a" ∧
    removeSuffixes (jsTrim "a tablet") ≠ lowerStr (jsTrim "a tablet") ∧
    "a" ∉ generateMedicineNameVariations "a tablet" := by
  decide

/-- C6 (amended): whenever the suffix-stripped form of the trimmed input
differs from its lowercase form **and is at least 2 characters long**,
`generateMedicineNameVariations` includes it. -/
theorem suffixStrip_amended (name : String)
    (h1 : removeSuffixes (jsTrim name) ≠ lowerStr (jsTrim name))
    (h2 : 2 ≤ (removeSuffixes (jsTrim name)).data.length) :
    removeSuffixes (jsTrim name) ∈ generateMedicineNameVariations name := by
  have hne : name ≠ "" := by
    intro h
    subst h
    exact h1 (by decide)
  have hw0 : removeSuffixes (jsTrim name) ≠ "" := by
    intro h0
    rw [h0] at h2
    exact absurd h2 (by decide)
  unfold generateMedicineNameVariations
  rw [if_neg hne]
  dsimp only
  apply List.mem_filter.mpr
  refine ⟨?_, decide_eq_true h2⟩
  apply mem_foldl_ocrAdds
  rw [if_pos ⟨hw0, h1⟩]
  exact mem_addUniq_self _ _

/-- Witness for C6 (amended): the variations of `"Paracetamol Tablet"`
include the stripped form, which is `"paracetamol"`. -/
theorem suffixStrip_amended_witness :
    removeSuffixes (jsTrim "Paracetamol Tablet") ∈
      generateMedicineNameVariations "Paracetamol Tablet" ∧
    removeSuffixes (jsTrim "Paracetamol Tablet") = "paracetamol" :=
  ⟨suffixStrip_amended "Paracetamol Tablet" (by decide) (by decide), by decide⟩
